import Mathlib

/-!
Verification of the comparison-table data-shaping layer
(`src/frontend/src/lib/v2/CompareUtils.ts` of `rahulunair/pipelines`).

The TypeScript source is shallowly embedded: each exported function becomes a
Lean function over explicit list-based state.  JavaScript objects used as
string-keyed dictionaries become insertion-ordered association lists with
unique keys; JavaScript array assignment past the end of an array (which
leaves holes reading as `undefined`) is modelled with `Option String` cells,
`none` standing for a hole.  Numbers carried inside MLMD `Value` payloads are
identified by their canonical JavaScript decimal string, since the code under
verification never computes with them, only prints them.
-/

/-! ## JSON values and JSON.stringify -/

/-- Plain JavaScript value produced by decoding an MLMD `Value`
(string / number / struct / null).  A number is represented by its canonical
JavaScript `ToString` decimal form. -/
inductive JsonValue where
  | jnull : JsonValue
  | jnum (dec : String) : JsonValue
  | jstr (s : String) : JsonValue
  | jobj (fields : List (String × JsonValue)) : JsonValue

/-- Lower-case hexadecimal digit, as used by `JSON.stringify` escapes. -/
def hexDigit (n : Nat) : Char :=
  if n < 10 then Char.ofNat (48 + n) else Char.ofNat (87 + n)

/-- Escape of a single character inside a JSON string literal, following
`JSON.stringify`. -/
def escapeJsonChar (c : Char) : String :=
  if c = '"' then "\\\""
  else if c = '\\' then "\\\\"
  else if c = Char.ofNat 8 then "\\b"
  else if c = Char.ofNat 9 then "\\t"
  else if c = Char.ofNat 10 then "\\n"
  else if c = Char.ofNat 12 then "\\f"
  else if c = Char.ofNat 13 then "\\r"
  else if c.toNat < 32 then
    "\\u00" ++ String.mk [hexDigit (c.toNat / 16), hexDigit (c.toNat % 16)]
  else String.mk [c]

/-- Escape of the body of a JSON string literal. -/
def escapeJsonString (s : String) : String :=
  String.join (s.toList.map escapeJsonChar)

mutual

/-- JavaScript `JSON.stringify` on decoded plain values. -/
def jsonStringify : JsonValue → String
  | .jnull => "null"
  | .jnum dec => dec
  | .jstr s => "\"" ++ escapeJsonString s ++ "\""
  | .jobj fields => "\x7b" ++ jsonStringifyFields fields ++ "\x7d"

/-- Comma-separated `"key":value` pairs of a JSON object body. -/
def jsonStringifyFields : List (String × JsonValue) → String
  | [] => ""
  | [kv] => "\"" ++ escapeJsonString kv.1 ++ "\":" ++ jsonStringify kv.2
  | kv :: rest =>
      "\"" ++ escapeJsonString kv.1 ++ "\":" ++ jsonStringify kv.2 ++ ","
        ++ jsonStringifyFields rest

end

/-! ## MLMD values and entities -/

/-- MLMD `Value` payload (oneof int / double / string / struct, possibly
unset).  The double case carries the canonical JavaScript decimal string of
the number. -/
inductive MlmdValue where
  | intValue (n : Int) : MlmdValue
  | doubleValue (dec : String) : MlmdValue
  | stringValue (s : String) : MlmdValue
  | structValue (fields : List (String × JsonValue)) : MlmdValue
  | nullValue : MlmdValue

/-- jspb `Map.get`: first entry with the given key, if any. -/
def jsMapGet (m : List (String × MlmdValue)) (k : String) : Option MlmdValue :=
  (m.find? (fun e => e.1 == k)).map (·.2)

/-- jspb `Value.getStructValue`: the struct payload when the value is a
struct, otherwise undefined. -/
def MlmdValue.getStructValue : MlmdValue → Option (List (String × JsonValue))
  | .structValue fields => some fields
  | _ => none

/-- Modelled from the spec: `getMetadataValue` (src/mlmd/Utils.ts, outside
this excerpt) decodes an MLMD `Value` to a plain string / number / struct /
null representation; an absent value decodes to null. -/
def getMetadataValue : Option MlmdValue → JsonValue
  | some (.intValue n) => .jnum (toString n)
  | some (.doubleValue dec) => .jnum dec
  | some (.stringValue s) => .jstr s
  | some (.structValue fields) => .jobj fields
  | some .nullValue => .jnull
  | none => .jnull

/-- MLMD execution entity: stable id plus optional display name. -/
structure Execution where
  id : Int
  displayName : Option String

/-- MLMD artifact entity: stable id, optional display name, and the custom
properties map (insertion-ordered entry list, as exposed by
`getCustomPropertiesMap().getEntryList()`). -/
structure Artifact where
  id : Int
  displayName : Option String
  customProperties : List (String × MlmdValue)

/-- MLMD event linking an execution id to an artifact id. -/
structure Event where
  executionId : Int
  artifactId : Int

/-- Artifact paired with the event that relates it to an execution. -/
structure LinkedArtifact where
  event : Event
  artifact : Artifact

/-- Execution plus its linked artifacts. -/
structure ExecutionArtifact where
  execution : Execution
  linkedArtifacts : List LinkedArtifact

/-- API run record; both fields are optional in the API type. -/
structure ApiRun where
  id : Option String
  name : Option String

/-- API run detail wrapper; the `run` field is optional. -/
structure ApiRunDetail where
  run : Option ApiRun

/-- A run plus its execution artifacts. -/
structure RunArtifact where
  run : ApiRunDetail
  executionArtifacts : List ExecutionArtifact

/-- JavaScript `a || b` on an optional string: the default is taken both for
an absent and for an empty (falsy) string. -/
def jsStrOr (o : Option String) (d : String) : String :=
  match o with
  | some s => if s = "" then d else s
  | none => d

/-- JavaScript template-literal rendering of a possibly-undefined string:
`undefined` interpolates as the text "undefined". -/
def jsTemplateOptStr (o : Option String) : String := o.getD "undefined"

/-- Modelled from the spec: `getExecutionDisplayName` (src/mlmd/MlmdUtils.ts,
outside this excerpt) reads the execution's display-name property, undefined
when not set. -/
def getExecutionDisplayName (e : Execution) : Option String := e.displayName

/-- Modelled from the spec: `getArtifactName` (src/mlmd/MlmdUtils.ts, outside
this excerpt) reads the linked artifact's display name, undefined when not
set. -/
def getArtifactName (la : LinkedArtifact) : Option String :=
  la.artifact.displayName

/-! ## Artifact Validator -/

/-- The optional chain
`customProperties.get('confidenceMetrics')?.getStructValue()?.toJavaScript()`:
defined exactly when the property exists and holds a struct.
`Struct.toJavaScript` returns the struct's plain field map (an object). -/
def confidenceMetricsChain (la : LinkedArtifact) :
    Option (List (String × JsonValue)) :=
  (jsMapGet la.artifact.customProperties "confidenceMetrics").bind
    MlmdValue.getStructValue

/-- Source `getValidArtifacts`: keep the linked artifacts whose
`confidenceMetrics` chain is defined.  A JavaScript object is truthy, so the
source's `if (confidenceMetrics)` holds iff the optional chain produced a
struct; the forEach/push loop is the filter preserving input order. -/
def getValidArtifacts (executionArtifact : ExecutionArtifact) :
    List LinkedArtifact :=
  executionArtifact.linkedArtifacts.filter
    (fun la => (confidenceMetricsChain la).isSome)

/-! ## Path Resolver -/

/-- Resolved display name plus stable identifier; `id` is `none` when the
underlying API id is absent (the JavaScript value `undefined`). -/
structure NameId where
  name : String
  id : Option String
deriving Repr, DecidableEq

/-- Resolved names and ids for the run / execution / artifact triple. -/
structure FullArtifactPath where
  run : NameId
  execution : NameId
  artifact : NameId
deriving Repr, DecidableEq

/-- Source `getFullArtifactPath`.  The source dereferences `run.run!`
unconditionally for the id field (and in the name fallback), so a missing
inner run object throws a TypeError at runtime; that failure is modelled as
`none`. -/
def getFullArtifactPath (run : ApiRunDetail) (execution : Execution)
    (linkedArtifact : LinkedArtifact) : Option FullArtifactPath :=
  match run.run with
  | none => none
  | some r => some
      { run :=
          { name := jsStrOr r.name ("Run ID #" ++ jsTemplateOptStr r.id)
            id := r.id }
        execution :=
          { name := jsStrOr (getExecutionDisplayName execution)
              ("Execution ID #" ++ toString execution.id)
            id := some (toString execution.id) }
        artifact :=
          { name := jsStrOr (getArtifactName linkedArtifact)
              ("Artifact ID #" ++ toString linkedArtifact.artifact.id)
            id := some (toString linkedArtifact.artifact.id) } }

/-! ## Scalar Aggregator -/

/-- One table cell: `some s` is a JavaScript string, `none` is a hole left by
assigning past the end of a JavaScript array (reads as `undefined`). -/
abbrev Cell := Option String

/-- One row of the scalar table: cells plus the populated-cell counter. -/
structure ScalarRowData where
  row : List Cell
  dataCount : Nat
deriving Repr, DecidableEq

/-- The `dataMap` JavaScript object, as an insertion-ordered association list
with unique keys. -/
abbrev DataMap := List (String × ScalarRowData)

/-- JavaScript `dataMap[k]` read. -/
def dmLookup (dm : DataMap) (k : String) : Option ScalarRowData :=
  (dm.find? (fun e => e.1 == k)).map (·.2)

/-- JavaScript `dataMap[k] = v`: an existing key keeps its position, a new
key is appended (object insertion order). -/
def dmSet : DataMap → String → ScalarRowData → DataMap
  | [], k, v => [(k, v)]
  | e :: rest, k, v => if e.1 = k then (k, v) :: rest else e :: dmSet rest k v

/-- JavaScript `arr[i] = v` on an array of strings: in range it updates the
cell, past the end it extends the array, leaving holes at the skipped
positions. -/
def jsArraySet (l : List Cell) (i : Nat) (v : String) : List Cell :=
  if i < l.length then l.set i (some v)
  else l ++ List.replicate (i - l.length) (none : Cell) ++ [some v]

/-- Body of the `addScalarDataItems` loop for one custom-property entry name:
skip the reserved `display_name` key, lazily initialise the metric's row with
`artifactCount` empty-string cells, then write the JSON-stringified decoded
value at the current column and bump `dataCount`. -/
def addScalarEntry (customProperties : List (String × MlmdValue))
    (dm : DataMap) (artifactIndex artifactCount : Nat)
    (scalarMetricName : String) : DataMap :=
  if scalarMetricName = "display_name" then dm
  else
    let dm1 := if (dmLookup dm scalarMetricName).isSome then dm
      else dmSet dm scalarMetricName
        ⟨List.replicate artifactCount (some ""), 0⟩
    let rd := (dmLookup dm1 scalarMetricName).getD ⟨[], 0⟩
    dmSet dm1 scalarMetricName
      ⟨jsArraySet rd.row artifactIndex
          (jsonStringify (getMetadataValue
            (jsMapGet customProperties scalarMetricName))),
        rd.dataCount + 1⟩

/-- The `addScalarDataItems` loop over the remaining entry list. -/
def addScalarEntries (customProperties : List (String × MlmdValue))
    (artifactIndex artifactCount : Nat) :
    List (String × MlmdValue) → DataMap → DataMap
  | [], dm => dm
  | entry :: rest, dm =>
      addScalarEntries customProperties artifactIndex artifactCount rest
        (addScalarEntry customProperties dm artifactIndex artifactCount
          entry.1)

/-- Source `addScalarDataItems`: iterate the artifact's custom-property entry
list against the shared `dataMap`. -/
def addScalarDataItems (customProperties : List (String × MlmdValue))
    (dm : DataMap) (artifactIndex artifactCount : Nat) : DataMap :=
  addScalarEntries customProperties artifactIndex artifactCount
    customProperties dm

/-- Mutable state threaded through `loadScalarExecutionArtifacts`: the
column labels, the metric map, and the running global column index. -/
structure AggState where
  xLabels : List String
  dataMap : DataMap
  artifactIndex : Nat
deriving Repr, DecidableEq

/-- Inner loop of `loadScalarExecutionArtifacts` over one execution's linked
artifacts: push the `"<execution> > <artifact>"` column label, add the
artifact's scalar data items, advance the column index. -/
def loadLinkedArtifacts (executionText : String) (artifactCount : Nat) :
    List LinkedArtifact → AggState → AggState
  | [], st => st
  | la :: rest, st =>
      let linkedArtifactText := jsStrOr (getArtifactName la) "-"
      let xLabel := executionText ++ " > " ++ linkedArtifactText
      loadLinkedArtifacts executionText artifactCount rest
        { xLabels := st.xLabels ++ [xLabel]
          dataMap := addScalarDataItems la.artifact.customProperties
            st.dataMap st.artifactIndex artifactCount
          artifactIndex := st.artifactIndex + 1 }

/-- Source `loadScalarExecutionArtifacts`: loop over the executions of one
run. -/
def loadScalarExecutionArtifacts (artifactCount : Nat) :
    List ExecutionArtifact → AggState → AggState
  | [], st => st
  | ea :: rest, st =>
      let executionText := jsStrOr (getExecutionDisplayName ea.execution) "-"
      loadScalarExecutionArtifacts artifactCount rest
        (loadLinkedArtifacts executionText artifactCount ea.linkedArtifacts
          st)

/-- Run group header: run label plus the number of columns it spans. -/
structure XParentLabel where
  label : String
  colSpan : Nat
deriving Repr, DecidableEq

/-- Aggregator output: column labels, run group labels, metric map. -/
structure ScalarTableData where
  xLabels : List String
  xParentLabels : List XParentLabel
  dataMap : DataMap
deriving Repr, DecidableEq

/-- State of the `getScalarTableData` loop over runs. -/
structure RunsState where
  xLabels : List String
  xParentLabels : List XParentLabel
  dataMap : DataMap
  artifactIndex : Nat
deriving Repr, DecidableEq

/-- Outer loop of `getScalarTableData` over the runs: load each run's
execution artifacts, then emit one group label spanning the columns the run
consumed. -/
def scalarTableRuns (artifactCount : Nat) :
    List RunArtifact → RunsState → RunsState
  | [], st => st
  | runArtifact :: rest, st =>
      let runName := jsStrOr (runArtifact.run.run.bind (·.name)) "-"
      let st1 := loadScalarExecutionArtifacts artifactCount
        runArtifact.executionArtifacts ⟨st.xLabels, st.dataMap, st.artifactIndex⟩
      scalarTableRuns artifactCount rest
        { xLabels := st1.xLabels
          xParentLabels := st.xParentLabels
            ++ [⟨runName, st1.artifactIndex - st.artifactIndex⟩]
          dataMap := st1.dataMap
          artifactIndex := st1.artifactIndex }

/-- Source `getScalarTableData`. -/
def getScalarTableData (scalarMetricsArtifacts : List RunArtifact)
    (artifactCount : Nat) : ScalarTableData :=
  let st := scalarTableRuns artifactCount scalarMetricsArtifacts ⟨[], [], [], 0⟩
  ⟨st.xLabels, st.xParentLabels, st.dataMap⟩

/-! ## Table Assembler -/

/-- Decimal digit-string value: `some` of the value when every character is
a digit and the string is non-empty. -/
def parseDecNat (cs : List Char) : Option Nat :=
  if cs.isEmpty then none
  else if cs.all (·.isDigit) then
    some (cs.foldl (fun n c => n * 10 + (c.toNat - 48)) 0)
  else none

/-- Canonical array-index property key: the canonical decimal form of an
integer below 2^32 - 1.  JavaScript objects enumerate these keys first, in
ascending numeric order. -/
def isArrayIndexKey (s : String) : Bool :=
  match parseDecNat s.toList with
  | some n => (toString n == s) && decide (n < 4294967295)
  | none => false

/-- Numeric value of an array-index key. -/
def keyToNat (s : String) : Nat := (parseDecNat s.toList).getD 0

/-- Stable insertion used to model JavaScript `Array.prototype.sort`: the
new element passes only the elements strictly before it under the
comparator, so elements comparing equal keep their original relative
order. -/
def stableInsert (le : α → α → Bool) (a : α) : List α → List α
  | [] => [a]
  | b :: t => if le b a && !le a b then b :: stableInsert le a t else a :: b :: t

/-- Stable sort modelling JavaScript `Array.prototype.sort`, which the
language specification requires to be stable and consistent with the
comparator. -/
def stableSort (le : α → α → Bool) : List α → List α
  | [] => []
  | a :: t => stableInsert le a (stableSort le t)

/-- Boolean comparison of array-index keys by numeric value. -/
def arrayIndexLe (a b : String × ScalarRowData) : Bool :=
  decide (keyToNat a.1 ≤ keyToNat b.1)

/-- JavaScript `Object.entries` enumeration order: array-index keys first in
ascending numeric order, then the remaining string keys in insertion
order. -/
def jsObjectEntries (dm : DataMap) : DataMap :=
  stableSort arrayIndexLe (dm.filter (fun e => isArrayIndexKey e.1))
    ++ dm.filter (fun e => !isArrayIndexKey e.1)

/-- Comparator `(a, b) => b[1].dataCount - a[1].dataCount` of the source's
stable `Array.prototype.sort` call, as a boolean order: `a` may stay before
`b` iff `b`'s count does not exceed `a`'s. -/
def scalarSortLe (a b : String × ScalarRowData) : Bool :=
  decide (b.2.dataCount ≤ a.2.dataCount)

/-- Assembler output consumed by the rendering layer. -/
structure CompareTableProps where
  xLabels : List String
  yLabels : List String
  xParentLabels : List XParentLabel
  rows : List (List Cell)
deriving Repr, DecidableEq

/-- Source `getCompareTableProps`: aggregate, sort the metric entries by
decreasing data item count (stable sort over object enumeration order), and
split into parallel label/row lists. -/
def getCompareTableProps (scalarMetricsArtifacts : List RunArtifact)
    (artifactCount : Nat) : CompareTableProps :=
  let scalarTableData := getScalarTableData scalarMetricsArtifacts
    artifactCount
  let sortedDataList := stableSort scalarSortLe
    (jsObjectEntries scalarTableData.dataMap)
  { xLabels := scalarTableData.xLabels
    yLabels := sortedDataList.map (·.1)
    xParentLabels := scalarTableData.xParentLabels
    rows := sortedDataList.map (·.2.row) }

/-! ## Metrics type labels -/

namespace MetricsType

/-- TypeScript numeric enum member `SCALAR_METRICS`. -/
def SCALAR_METRICS : Int := 0

/-- TypeScript numeric enum member `CONFUSION_MATRIX`. -/
def CONFUSION_MATRIX : Int := 1

/-- TypeScript numeric enum member `ROC_CURVE`. -/
def ROC_CURVE : Int := 2

/-- TypeScript numeric enum member `HTML`. -/
def HTML : Int := 3

/-- TypeScript numeric enum member `MARKDOWN`. -/
def MARKDOWN : Int := 4

end MetricsType

/-- Source `metricsTypeToString`: the switch over the numeric enum, with the
defensive default branch returning the empty string. -/
def metricsTypeToString (metricsType : Int) : String :=
  if metricsType = MetricsType.SCALAR_METRICS then "Scalar Metrics"
  else if metricsType = MetricsType.CONFUSION_MATRIX then "Confusion Matrix"
  else if metricsType = MetricsType.ROC_CURVE then "ROC Curve"
  else if metricsType = MetricsType.HTML then "HTML"
  else if metricsType = MetricsType.MARKDOWN then "Markdown"
  else ""

/-! ## Derived notions used by the statements -/

/-- Total number of linked artifacts across all runs and executions: the
"global artifact count" the caller is meant to pass as `artifactCount`. -/
def totalLinkedArtifacts (ras : List RunArtifact) : Nat :=
  (ras.map (fun ra =>
    (ra.executionArtifacts.map (fun ea => ea.linkedArtifacts.length)).sum)).sum

/-- A cell is filled when it holds a non-empty string (neither the initial
empty-string fill nor a hole). -/
def cellFilled : Cell → Bool
  | some s => decide (s ≠ "")
  | none => false

/-- Number of filled cells of a row. -/
def filledCells (row : List Cell) : Nat :=
  (row.filter cellFilled).length

/-- Well-formed MLMD value: a double payload carries a non-empty decimal
string, as JavaScript number printing guarantees. -/
def wfValue : MlmdValue → Bool
  | .doubleValue dec => decide (dec ≠ "")
  | _ => true

/-- Well-formed custom-property map: entry keys are unique (as jspb maps
guarantee) and every value payload is well-formed. -/
def wfProps (props : List (String × MlmdValue)) : Prop :=
  (props.map (·.1)).Nodup ∧ ∀ e ∈ props, wfValue e.2 = true

/-- Well-formed input: every artifact's custom-property map is
well-formed. -/
def wfRunArtifacts (ras : List RunArtifact) : Prop :=
  ∀ ra ∈ ras, ∀ ea ∈ ra.executionArtifacts, ∀ la ∈ ea.linkedArtifacts,
    wfProps la.artifact.customProperties

/-- Count/filled-cell invariant carried through the aggregation: every row's
`dataCount` equals its number of filled cells, and no cell at a column index
at or beyond the running index `j` is filled yet. -/
def dmCountInv (dm : DataMap) (j : Nat) : Prop :=
  ∀ e ∈ dm, e.2.dataCount = filledCells e.2.row ∧
    ∀ p, j ≤ p → cellFilled (e.2.row.getD p none) = false

/-! ## Concrete inputs used by the closed statements -/

/-- Linked artifact with the given artifact id and custom properties; the
event ids and display name are immaterial to the table claims. -/
def mkLinkedArtifact (id : Int) (props : List (String × MlmdValue)) :
    LinkedArtifact :=
  ⟨⟨1, id⟩, ⟨id, none, props⟩⟩

/-- Execution artifact with a nameless execution. -/
def mkExecutionArtifact (las : List LinkedArtifact) : ExecutionArtifact :=
  ⟨⟨1, none⟩, las⟩

/-- Run artifact with a nameless run. -/
def mkRunArtifact (eas : List ExecutionArtifact) : RunArtifact :=
  ⟨⟨some ⟨some "r1", none⟩⟩, eas⟩

/-- One run, one execution, one artifact carrying a single metric. -/
def exOneMetric : List RunArtifact :=
  [mkRunArtifact [mkExecutionArtifact
    [mkLinkedArtifact 1 [("m", .intValue 1)]]]]

/-- One run, one execution, one artifact carrying two metrics whose names
are canonical array-index strings, inserted as "2" then "1". -/
def exNumericKeys : List RunArtifact :=
  [mkRunArtifact [mkExecutionArtifact
    [mkLinkedArtifact 1 [("2", .intValue 1), ("1", .intValue 1)]]]]

/-- The spec's worked example: one run, one execution, artifacts with
properties acc = 0.9 and acc = 0.8, f1 = 0.5. -/
def exAccF1 : List RunArtifact :=
  [mkRunArtifact [mkExecutionArtifact
    [mkLinkedArtifact 1 [("acc", .doubleValue "0.9")],
     mkLinkedArtifact 2 [("acc", .doubleValue "0.8"),
                         ("f1", .doubleValue "0.5")]]]]

/-- One artifact whose properties are a reserved display name and one
metric. -/
def exDisplayName : List RunArtifact :=
  [mkRunArtifact [mkExecutionArtifact
    [mkLinkedArtifact 1 [("display_name", .stringValue "foo"),
                         ("metric", .intValue 1)]]]]

/-- Execution artifact exercising the validator: an artifact with an empty
confidence-metrics struct, one with a scalar in that property, and one
without the property. -/
def exValidator : ExecutionArtifact :=
  mkExecutionArtifact
    [mkLinkedArtifact 1 [("confidenceMetrics", .structValue [])],
     mkLinkedArtifact 2 [("confidenceMetrics", .doubleValue "0")],
     mkLinkedArtifact 3 [("other", .intValue 7)]]

/-! ## General lemmas -/

theorem string_mk_ne_empty (l : List Char) (h : l ≠ []) : String.mk l ≠ "" := by
  intro e
  apply h
  simpa [String.ext_iff] using e

theorem append_ne_empty_left (a b : String) (h : a ≠ "") : a ++ b ≠ "" := by
  intro e
  apply h
  have hd : a.data ++ b.data = [] := by simpa [String.ext_iff] using e
  have ha : a.data = [] := (List.append_eq_nil.mp hd).1
  simpa [String.ext_iff] using ha

theorem toDigitsCore_ne_nil (b : Nat) :
    ∀ (fuel n : Nat) (ds : List Char), ds ≠ [] ∨ fuel ≠ 0 →
      Nat.toDigitsCore b fuel n ds ≠ []
  | 0, _, ds, h => by
      rcases h with h | h
      · simpa [Nat.toDigitsCore] using h
      · exact absurd rfl h
  | fuel + 1, n, ds, _ => by
      unfold Nat.toDigitsCore
      dsimp only
      split
      · exact List.cons_ne_nil _ _
      · exact toDigitsCore_ne_nil b fuel (n / b) _ (Or.inl (List.cons_ne_nil _ _))

theorem nat_repr_ne_empty (n : Nat) : Nat.repr n ≠ "" := by
  apply string_mk_ne_empty
  exact toDigitsCore_ne_nil 10 (n + 1) n [] (Or.inr (Nat.succ_ne_zero n))

theorem int_toString_ne_empty (n : Int) : toString n ≠ "" := by
  show Int.repr n ≠ ""
  cases n with
  | ofNat m => exact nat_repr_ne_empty m
  | negSucc m =>
      exact append_ne_empty_left "-" _ (by decide)

theorem jsonStringify_getMetadataValue_ne_empty (v : Option MlmdValue)
    (h : ∀ dec, v = some (.doubleValue dec) → dec ≠ "") :
    jsonStringify (getMetadataValue v) ≠ "" := by
  match v with
  | none => simp [getMetadataValue, jsonStringify]
  | some (.intValue n) =>
      simpa [getMetadataValue, jsonStringify] using int_toString_ne_empty n
  | some (.doubleValue dec) =>
      simpa [getMetadataValue, jsonStringify] using h dec rfl
  | some (.stringValue s) =>
      simpa [getMetadataValue, jsonStringify] using
        append_ne_empty_left "\"" _ (by decide)
  | some (.structValue fields) =>
      simpa [getMetadataValue, jsonStringify] using
        append_ne_empty_left "\x7b" _ (by decide)
  | some .nullValue => simp [getMetadataValue, jsonStringify]

theorem dmSet_mem {dm : DataMap} {k : String} {v : ScalarRowData} :
    ∀ e ∈ dmSet dm k v, e ∈ dm ∨ e = (k, v) := by
  induction dm with
  | nil => intro e he; simpa [dmSet] using he
  | cons hd tl ih =>
      intro e he
      by_cases hk : hd.1 = k
      · simp [dmSet, hk] at he
        rcases he with he | he
        · exact Or.inr (by simp [he])
        · exact Or.inl (List.mem_cons_of_mem _ he)
      · simp [dmSet, hk] at he
        rcases he with he | he
        · exact Or.inl (by simp [he])
        · rcases ih e he with h | h
          · exact Or.inl (List.mem_cons_of_mem _ h)
          · exact Or.inr h

theorem dmLookup_dmSet_self (dm : DataMap) (k : String) (v : ScalarRowData) :
    dmLookup (dmSet dm k v) k = some v := by
  induction dm with
  | nil => simp [dmSet, dmLookup]
  | cons hd tl ih =>
      by_cases hk : hd.1 = k
      · simp [dmSet, hk, dmLookup]
      · simpa [dmSet, hk, dmLookup, List.find?] using ih

theorem dmLookup_mem {dm : DataMap} {k : String} {v : ScalarRowData}
    (h : dmLookup dm k = some v) : (k, v) ∈ dm := by
  unfold dmLookup at h
  cases hf : dm.find? (fun e => e.1 == k) with
  | none => simp [hf] at h
  | some e =>
      have hk : e.1 = k := by
        have := List.find?_some hf
        simpa using this
      have hm : e ∈ dm := List.mem_of_find?_eq_some hf
      have hv : e.2 = v := by simp [hf] at h; exact h
      have : e = (k, v) := by
        cases e; simp_all
      rwa [this] at hm

theorem filledCells_cons (c : Cell) (t : List Cell) :
    filledCells (c :: t) = (if cellFilled c then 1 else 0) + filledCells t := by
  simp only [filledCells, List.filter_cons]
  split <;> simp [Nat.add_comm]

theorem filledCells_append (l1 l2 : List Cell) :
    filledCells (l1 ++ l2) = filledCells l1 + filledCells l2 := by
  simp [filledCells, List.filter_append]

theorem filledCells_replicate (n : Nat) (c : Cell) (h : cellFilled c = false) :
    filledCells (List.replicate n c) = 0 := by
  induction n with
  | zero => simp [filledCells]
  | succ m ih => simp [List.replicate_succ, filledCells_cons, h, ih]

theorem filledCells_set (l : List Cell) (j : Nat) (v : String)
    (hj : j < l.length) (h : cellFilled (l.getD j none) = false)
    (hv : cellFilled (some v) = true) :
    filledCells (l.set j (some v)) = filledCells l + 1 := by
  induction l generalizing j with
  | nil => simp at hj
  | cons a t ih =>
      cases j with
      | zero =>
          have ha : cellFilled a = false := by simpa [List.getD] using h
          simp [List.set, filledCells_cons, ha, hv, Nat.add_comm]
      | succ m =>
          have hm : m < t.length := by simpa using hj
          have hgd : cellFilled (t.getD m none) = false := by
            simpa [List.getD] using h
          simp [List.set, filledCells_cons, ih m hm hgd, Nat.add_assoc]

theorem jsArraySet_length {l : List Cell} {i : Nat} (v : String)
    (h : i < l.length) : (jsArraySet l i v).length = l.length := by
  simp [jsArraySet, h]

theorem filledCells_jsArraySet (l : List Cell) (j : Nat) (v : String)
    (h : cellFilled (l.getD j none) = false) (hv : v ≠ "") :
    filledCells (jsArraySet l j v) = filledCells l + 1 := by
  have hv' : cellFilled (some v) = true := by simp [cellFilled, hv]
  unfold jsArraySet
  split
  · exact filledCells_set l j v (by assumption) h hv'
  · have h1 : filledCells [some v] = 1 := by
      simp [filledCells_cons, hv', filledCells]
    rw [filledCells_append, filledCells_append,
      filledCells_replicate _ none rfl, h1]

theorem getD_eq_none_of_le {l : List Cell} {p : Nat} (h : l.length ≤ p) :
    l.getD p none = none :=
  List.getD_eq_default _ _ h

theorem jsArraySet_unfilled_above (l : List Cell) (j : Nat) (v : String)
    (h : ∀ p, j ≤ p → cellFilled (l.getD p none) = false) :
    ∀ p, j < p → cellFilled ((jsArraySet l j v).getD p none) = false := by
  intro p hp
  unfold jsArraySet
  split
  · rename_i hlen
    by_cases hpl : p < l.length
    · have : (l.set j (some v)).getD p none = l.getD p none := by
        simp [List.getD, List.getElem?_set_ne (by omega : j ≠ p)]
      rw [this]
      exact h p (Nat.le_of_lt hp)
    · have hnone : (l.set j (some v)).getD p none = none := by
        apply getD_eq_none_of_le
        simpa using Nat.le_of_not_lt hpl
      rw [hnone]
      rfl
  · rename_i hlen
    have hlen' : l.length ≤ j := Nat.le_of_not_lt hlen
    have : (l ++ List.replicate (j - l.length) none ++ [some v]).length = j + 1 := by
      simp [List.length_append, List.length_replicate]
      omega
    have hd : (l ++ List.replicate (j - l.length) none ++ [some v]).getD p none = none := by
      apply getD_eq_none_of_le
      omega
    rw [hd]
    rfl

/-! ## Claim theorems: validator, path resolver, enum labels -/

/-- C3: the Artifact Validator returns, in input order and without
signalling failure, exactly those linked artifacts whose confidenceMetrics
property exists and decodes through the struct chain to a non-null plain
value; any artifact whose chain is defined (for example one carrying an
empty struct) is included, and an artifact lacking the property is
excluded. -/
theorem c3_theorem (ea : ExecutionArtifact) :
    (getValidArtifacts ea).Sublist ea.linkedArtifacts ∧
    (∀ la ∈ ea.linkedArtifacts, (confidenceMetricsChain la).isSome →
      la ∈ getValidArtifacts ea) ∧
    (∀ la ∈ getValidArtifacts ea, (confidenceMetricsChain la).isSome) ∧
    (∀ la ∈ ea.linkedArtifacts,
      jsMapGet la.artifact.customProperties "confidenceMetrics" = none →
      la ∉ getValidArtifacts ea) := by
  simp only [getValidArtifacts]
  refine ⟨List.filter_sublist _, ?_, ?_, ?_⟩
  · intro la hm hc
    exact List.mem_filter.mpr ⟨hm, hc⟩
  · intro la hm
    exact (List.mem_filter.mp hm).2
  · intro la _ hnone hmem
    have hc := (List.mem_filter.mp hmem).2
    simp [confidenceMetricsChain, hnone] at hc

/-- Witness for c3_theorem: the artifact with the empty confidence-metrics
struct is kept, and it is the only artifact of `exValidator` kept. -/
theorem c3_witness :
    (mkLinkedArtifact 1 [("confidenceMetrics", .structValue [])]) ∈
      getValidArtifacts exValidator ∧
    (getValidArtifacts exValidator).map (fun la => la.artifact.id) = [1] :=
  ⟨(c3_theorem exValidator).2.1 _ (List.Mem.head _) (by decide), by decide⟩

/-- C4: on the spec's worked example (one run, one execution, artifacts
with properties acc = 0.9 and acc = 0.8, f1 = 0.5, artifact count 2) the
Aggregator plus Assembler produce yLabels acc then f1, row acc = 0.9, 0.8
and row f1 = empty, 0.5, each cell the JSON stringification of the decoded
property value. -/
theorem c4_theorem :
    (getCompareTableProps exAccF1 2).yLabels = ["acc", "f1"] ∧
    (getCompareTableProps exAccF1 2).rows =
      [[some "0.9", some "0.8"], [some "", some "0.5"]] ∧
    jsonStringify (getMetadataValue (jsMapGet
      [("acc", .doubleValue "0.9")] "acc")) = "0.9" ∧
    jsonStringify (getMetadataValue (jsMapGet
      [("acc", .doubleValue "0.8"), ("f1", .doubleValue "0.5")] "f1")) =
      "0.5" := by
  decide

/-- C5: the Path Resolver is total whenever the inner run object is
present: it returns some FullArtifactPath and never signals failure. -/
theorem c5_theorem (run : ApiRunDetail) (execution : Execution)
    (linkedArtifact : LinkedArtifact) (h : run.run.isSome) :
    (getFullArtifactPath run execution linkedArtifact).isSome := by
  obtain ⟨r, hr⟩ := Option.isSome_iff_exists.mp h
  simp [getFullArtifactPath, hr]

/-- Witness for c5_theorem at a concrete run, execution and artifact. -/
theorem c5_witness :
    (getFullArtifactPath ⟨some ⟨some "42", none⟩⟩ ⟨7, none⟩
      (mkLinkedArtifact 9 [])).isSome :=
  c5_theorem _ _ _ (by decide)

/-- C6: each entity's resolved name is the display name when present and
non-empty and otherwise the synthesized "EntityType ID #id" string, the id
field always being the stable identifier; in particular a run with no name
and id 42 resolves to "Run ID #42". -/
theorem c6_theorem :
    (∀ (rd : ApiRunDetail) (execution : Execution) (la : LinkedArtifact)
        (r : ApiRun), rd.run = some r →
      ∃ p, getFullArtifactPath rd execution la = some p ∧
        (p.run.id = r.id ∧ p.execution.id = some (toString execution.id) ∧
          p.artifact.id = some (toString la.artifact.id)) ∧
        (∀ s, r.name = some s → s ≠ "" → p.run.name = s) ∧
        ((r.name = none ∨ r.name = some "") →
          p.run.name = "Run ID #" ++ jsTemplateOptStr r.id) ∧
        (∀ s, getExecutionDisplayName execution = some s → s ≠ "" →
          p.execution.name = s) ∧
        ((getExecutionDisplayName execution = none ∨
            getExecutionDisplayName execution = some "") →
          p.execution.name = "Execution ID #" ++ toString execution.id) ∧
        (∀ s, getArtifactName la = some s → s ≠ "" → p.artifact.name = s) ∧
        ((getArtifactName la = none ∨ getArtifactName la = some "") →
          p.artifact.name = "Artifact ID #" ++ toString la.artifact.id)) ∧
    (getFullArtifactPath ⟨some ⟨some "42", none⟩⟩ ⟨7, none⟩
        (mkLinkedArtifact 9 [])).map (fun p => p.run.name) =
      some "Run ID #42" := by
  constructor
  · intro rd execution la r hr
    cases rd with
    | mk orun =>
        simp only at hr
        subst hr
        refine ⟨_, rfl, ⟨rfl, rfl, rfl⟩, ?_, ?_, ?_, ?_, ?_, ?_⟩
        · intro s hs hne
          simp [getFullArtifactPath, jsStrOr, hs, hne]
        · intro hc
          rcases hc with h0 | h0 <;> simp [getFullArtifactPath, jsStrOr, h0]
        · intro s hs hne
          simp [getFullArtifactPath, jsStrOr, hs, hne]
        · intro hc
          rcases hc with h0 | h0 <;> simp [getFullArtifactPath, jsStrOr, h0]
        · intro s hs hne
          simp [getFullArtifactPath, jsStrOr, hs, hne]
        · intro hc
          rcases hc with h0 | h0 <;> simp [getFullArtifactPath, jsStrOr, h0]
  · decide

/-- Witness for c6_theorem at a named run and an unnamed execution. -/
theorem c6_witness :
    ∃ p, getFullArtifactPath ⟨some ⟨some "1", some "my-run"⟩⟩ ⟨7, none⟩
        (mkLinkedArtifact 9 []) = some p ∧
      p.run.name = "my-run" ∧ p.execution.name = "Execution ID #7" := by
  obtain ⟨p, hp, _, hrun, _, _, hexec, _, _⟩ :=
    c6_theorem.1 ⟨some ⟨some "1", some "my-run"⟩⟩ ⟨7, none⟩
      (mkLinkedArtifact 9 []) ⟨some "1", some "my-run"⟩ rfl
  exact ⟨p, hp, hrun "my-run" rfl (by decide), hexec (Or.inl rfl)⟩

/-- C9: metricsTypeToString maps each of the five enum values to its
human-readable label and any other value to the empty string. -/
theorem c9_theorem :
    (metricsTypeToString MetricsType.SCALAR_METRICS = "Scalar Metrics" ∧
      metricsTypeToString MetricsType.CONFUSION_MATRIX = "Confusion Matrix" ∧
      metricsTypeToString MetricsType.ROC_CURVE = "ROC Curve" ∧
      metricsTypeToString MetricsType.HTML = "HTML" ∧
      metricsTypeToString MetricsType.MARKDOWN = "Markdown") ∧
    ∀ n : Int, n ≠ MetricsType.SCALAR_METRICS →
      n ≠ MetricsType.CONFUSION_MATRIX → n ≠ MetricsType.ROC_CURVE →
      n ≠ MetricsType.HTML → n ≠ MetricsType.MARKDOWN →
      metricsTypeToString n = "" := by
  refine ⟨⟨by decide, by decide, by decide, by decide, by decide⟩, ?_⟩
  intro n h0 h1 h2 h3 h4
  simp [metricsTypeToString, h0, h1, h2, h3, h4]

/-- Witness for c9_theorem at the out-of-range value 7. -/
theorem c9_witness : metricsTypeToString 7 = "" :=
  c9_theorem.2 7 (by decide) (by decide) (by decide) (by decide) (by decide)

/-! ## Key invariant: the reserved display_name key -/

theorem addScalarEntry_keys (props : List (String × MlmdValue))
    (dm : DataMap) (i c : Nat) (k : String)
    (h : ∀ e ∈ dm, e.1 ≠ "display_name") :
    ∀ e ∈ addScalarEntry props dm i c k, e.1 ≠ "display_name" := by
  unfold addScalarEntry
  split
  · exact h
  · rename_i hk
    dsimp only
    intro e he
    rcases dmSet_mem e he with h1 | h1
    · by_cases hl : (dmLookup dm k).isSome = true
      · rw [if_pos hl] at h1
        exact h e h1
      · rw [if_neg hl] at h1
        rcases dmSet_mem e h1 with h2 | h2
        · exact h e h2
        · rw [h2]
          exact hk
    · rw [h1]
      exact hk

theorem addScalarEntries_keys (props : List (String × MlmdValue))
    (i c : Nat) :
    ∀ (entries : List (String × MlmdValue)) (dm : DataMap),
      (∀ e ∈ dm, e.1 ≠ "display_name") →
      ∀ e ∈ addScalarEntries props i c entries dm, e.1 ≠ "display_name" := by
  intro entries
  induction entries with
  | nil => intro dm h; simpa [addScalarEntries] using h
  | cons entry rest ih =>
      intro dm h
      simp only [addScalarEntries]
      exact ih _ (addScalarEntry_keys props dm i c entry.1 h)

theorem addScalarDataItems_keys (props : List (String × MlmdValue))
    (dm : DataMap) (i c : Nat) (h : ∀ e ∈ dm, e.1 ≠ "display_name") :
    ∀ e ∈ addScalarDataItems props dm i c, e.1 ≠ "display_name" :=
  addScalarEntries_keys props i c props dm h

theorem loadLinkedArtifacts_keys (t : String) (c : Nat) :
    ∀ (las : List LinkedArtifact) (st : AggState),
      (∀ e ∈ st.dataMap, e.1 ≠ "display_name") →
      ∀ e ∈ (loadLinkedArtifacts t c las st).dataMap, e.1 ≠ "display_name" := by
  intro las
  induction las with
  | nil => intro st h; simpa [loadLinkedArtifacts] using h
  | cons la rest ih =>
      intro st h
      simp only [loadLinkedArtifacts]
      exact ih _ (addScalarDataItems_keys _ _ _ _ h)

theorem loadScalarExecutionArtifacts_keys (c : Nat) :
    ∀ (eas : List ExecutionArtifact) (st : AggState),
      (∀ e ∈ st.dataMap, e.1 ≠ "display_name") →
      ∀ e ∈ (loadScalarExecutionArtifacts c eas st).dataMap,
        e.1 ≠ "display_name" := by
  intro eas
  induction eas with
  | nil => intro st h; simpa [loadScalarExecutionArtifacts] using h
  | cons ea rest ih =>
      intro st h
      simp only [loadScalarExecutionArtifacts]
      exact ih _ (loadLinkedArtifacts_keys _ _ _ _ h)

theorem scalarTableRuns_keys (c : Nat) :
    ∀ (ras : List RunArtifact) (st : RunsState),
      (∀ e ∈ st.dataMap, e.1 ≠ "display_name") →
      ∀ e ∈ (scalarTableRuns c ras st).dataMap, e.1 ≠ "display_name" := by
  intro ras
  induction ras with
  | nil => intro st h; simpa [scalarTableRuns] using h
  | cons ra rest ih =>
      intro st h
      simp only [scalarTableRuns]
      exact ih _ (loadScalarExecutionArtifacts_keys _ _ _ h)

/-- C8: the reserved display_name custom property never becomes a row key
of dataMap; in particular an artifact with properties display_name = foo
and metric = 1 contributes only the metric key. -/
theorem c8_theorem :
    (∀ (ras : List RunArtifact) (ac : Nat),
      ((getScalarTableData ras ac).dataMap.any
        (fun e => e.1 == "display_name")) = false) ∧
    (getScalarTableData exDisplayName 1).dataMap.map (·.1) = ["metric"] := by
  constructor
  · intro ras ac
    rw [List.any_eq_false]
    intro e he
    have hkey : ∀ x ∈ (scalarTableRuns ac ras ⟨[], [], [], 0⟩).dataMap,
        x.1 ≠ "display_name" :=
      scalarTableRuns_keys ac ras ⟨[], [], [], 0⟩ (by simp)
    have := hkey e (by simpa [getScalarTableData] using he)
    simpa using this
  · decide

/-! ## Column-count bookkeeping of the Aggregator -/

theorem addScalarEntry_eq (props : List (String × MlmdValue)) (dm : DataMap)
    (i c : Nat) (k : String) :
    addScalarEntry props dm i c k =
      if k = "display_name" then dm
      else
        match dmLookup dm k with
        | some rd => dmSet dm k
            ⟨jsArraySet rd.row i
              (jsonStringify (getMetadataValue (jsMapGet props k))),
              rd.dataCount + 1⟩
        | none =>
            dmSet (dmSet dm k ⟨List.replicate c (some ""), 0⟩) k
              ⟨jsArraySet (List.replicate c (some "")) i
                (jsonStringify (getMetadataValue (jsMapGet props k))), 1⟩ := by
  unfold addScalarEntry
  by_cases hd : k = "display_name"
  · simp [hd]
  · simp only [if_neg hd]
    cases hl : dmLookup dm k with
    | some rd => simp [hl]
    | none => simp [hl, dmLookup_dmSet_self]

theorem loadLinkedArtifacts_artifactIndex (t : String) (c : Nat) :
    ∀ (las : List LinkedArtifact) (st : AggState),
      (loadLinkedArtifacts t c las st).artifactIndex =
        st.artifactIndex + las.length := by
  intro las
  induction las with
  | nil => intro st; simp [loadLinkedArtifacts]
  | cons la rest ih =>
      intro st
      simp only [loadLinkedArtifacts]
      rw [ih]
      dsimp only
      simp only [List.length_cons]
      omega

theorem loadLinkedArtifacts_xLabels_length (t : String) (c : Nat) :
    ∀ (las : List LinkedArtifact) (st : AggState),
      (loadLinkedArtifacts t c las st).xLabels.length =
        st.xLabels.length + las.length := by
  intro las
  induction las with
  | nil => intro st; simp [loadLinkedArtifacts]
  | cons la rest ih =>
      intro st
      simp only [loadLinkedArtifacts]
      rw [ih]
      dsimp only
      simp [List.length_cons, List.length_append]
      omega

theorem loadScalarExecutionArtifacts_artifactIndex (c : Nat) :
    ∀ (eas : List ExecutionArtifact) (st : AggState),
      (loadScalarExecutionArtifacts c eas st).artifactIndex =
        st.artifactIndex +
          (eas.map (fun ea => ea.linkedArtifacts.length)).sum := by
  intro eas
  induction eas with
  | nil => intro st; simp [loadScalarExecutionArtifacts]
  | cons ea rest ih =>
      intro st
      simp only [loadScalarExecutionArtifacts]
      rw [ih, loadLinkedArtifacts_artifactIndex]
      simp
      omega

theorem loadScalarExecutionArtifacts_xLabels_length (c : Nat) :
    ∀ (eas : List ExecutionArtifact) (st : AggState),
      (loadScalarExecutionArtifacts c eas st).xLabels.length =
        st.xLabels.length +
          (eas.map (fun ea => ea.linkedArtifacts.length)).sum := by
  intro eas
  induction eas with
  | nil => intro st; simp [loadScalarExecutionArtifacts]
  | cons ea rest ih =>
      intro st
      simp only [loadScalarExecutionArtifacts]
      rw [ih, loadLinkedArtifacts_xLabels_length]
      simp
      omega

theorem scalarTableRuns_artifactIndex (c : Nat) :
    ∀ (ras : List RunArtifact) (st : RunsState),
      (scalarTableRuns c ras st).artifactIndex =
        st.artifactIndex + totalLinkedArtifacts ras := by
  intro ras
  induction ras with
  | nil => intro st; simp [scalarTableRuns, totalLinkedArtifacts]
  | cons ra rest ih =>
      intro st
      simp only [scalarTableRuns]
      rw [ih]
      dsimp only
      rw [loadScalarExecutionArtifacts_artifactIndex]
      simp [totalLinkedArtifacts]
      omega

theorem scalarTableRuns_xLabels_length (c : Nat) :
    ∀ (ras : List RunArtifact) (st : RunsState),
      (scalarTableRuns c ras st).xLabels.length =
        st.xLabels.length + totalLinkedArtifacts ras := by
  intro ras
  induction ras with
  | nil => intro st; simp [scalarTableRuns, totalLinkedArtifacts]
  | cons ra rest ih =>
      intro st
      simp only [scalarTableRuns]
      rw [ih]
      dsimp only
      rw [loadScalarExecutionArtifacts_xLabels_length]
      simp [totalLinkedArtifacts]
      omega

theorem scalarTableRuns_colSpanSum (c : Nat) :
    ∀ (ras : List RunArtifact) (st : RunsState),
      ((scalarTableRuns c ras st).xParentLabels.map (·.colSpan)).sum =
        (st.xParentLabels.map (·.colSpan)).sum + totalLinkedArtifacts ras := by
  intro ras
  induction ras with
  | nil => intro st; simp [scalarTableRuns, totalLinkedArtifacts]
  | cons ra rest ih =>
      intro st
      simp only [scalarTableRuns]
      rw [ih]
      dsimp only
      rw [loadScalarExecutionArtifacts_artifactIndex]
      simp [totalLinkedArtifacts]
      omega

/-! ## Row-length invariant -/

theorem addScalarEntry_rowlen (props : List (String × MlmdValue))
    (dm : DataMap) (i c : Nat) (k : String)
    (h : ∀ e ∈ dm, e.2.row.length = c) (hi : i < c) :
    ∀ e ∈ addScalarEntry props dm i c k, e.2.row.length = c := by
  rw [addScalarEntry_eq]
  split
  · exact h
  · cases hl : dmLookup dm k with
    | some rd =>
        intro e he
        rcases dmSet_mem e he with h1 | h1
        · exact h e h1
        · have hrd : rd.row.length = c := h (k, rd) (dmLookup_mem hl)
          rw [h1]
          dsimp only
          rw [jsArraySet_length _ (by omega)]
          exact hrd
    | none =>
        intro e he
        rcases dmSet_mem e he with h1 | h1
        · rcases dmSet_mem e h1 with h2 | h2
          · exact h e h2
          · rw [h2]
            simp
        · rw [h1]
          dsimp only
          rw [jsArraySet_length _ (by simp; omega)]
          simp

theorem addScalarEntries_rowlen (props : List (String × MlmdValue))
    (i c : Nat) (hi : i < c) :
    ∀ (entries : List (String × MlmdValue)) (dm : DataMap),
      (∀ e ∈ dm, e.2.row.length = c) →
      ∀ e ∈ addScalarEntries props i c entries dm, e.2.row.length = c := by
  intro entries
  induction entries with
  | nil => intro dm h; simpa [addScalarEntries] using h
  | cons entry rest ih =>
      intro dm h
      simp only [addScalarEntries]
      exact ih _ (addScalarEntry_rowlen props dm i c entry.1 h hi)

theorem loadLinkedArtifacts_rowlen (t : String) (c : Nat) :
    ∀ (las : List LinkedArtifact) (st : AggState),
      (∀ e ∈ st.dataMap, e.2.row.length = c) →
      st.artifactIndex + las.length ≤ c →
      ∀ e ∈ (loadLinkedArtifacts t c las st).dataMap,
        e.2.row.length = c := by
  intro las
  induction las with
  | nil => intro st h _; simpa [loadLinkedArtifacts] using h
  | cons la rest ih =>
      intro st h hle
      simp only [loadLinkedArtifacts]
      simp only [List.length_cons] at hle
      apply ih
      · exact addScalarEntries_rowlen _ _ _ (by omega) _ _ h
      · dsimp only
        omega

theorem loadScalarExecutionArtifacts_rowlen (c : Nat) :
    ∀ (eas : List ExecutionArtifact) (st : AggState),
      (∀ e ∈ st.dataMap, e.2.row.length = c) →
      st.artifactIndex +
          (eas.map (fun ea => ea.linkedArtifacts.length)).sum ≤ c →
      ∀ e ∈ (loadScalarExecutionArtifacts c eas st).dataMap,
        e.2.row.length = c := by
  intro eas
  induction eas with
  | nil => intro st h _; simpa [loadScalarExecutionArtifacts] using h
  | cons ea rest ih =>
      intro st h hle
      simp only [loadScalarExecutionArtifacts]
      simp only [List.map_cons, List.sum_cons] at hle
      apply ih
      · exact loadLinkedArtifacts_rowlen _ _ _ _ h (by omega)
      · rw [loadLinkedArtifacts_artifactIndex]
        omega

theorem scalarTableRuns_rowlen (c : Nat) :
    ∀ (ras : List RunArtifact) (st : RunsState),
      (∀ e ∈ st.dataMap, e.2.row.length = c) →
      st.artifactIndex + totalLinkedArtifacts ras ≤ c →
      ∀ e ∈ (scalarTableRuns c ras st).dataMap, e.2.row.length = c := by
  intro ras
  induction ras with
  | nil => intro st h _; simpa [scalarTableRuns] using h
  | cons ra rest ih =>
      intro st h hle
      simp only [scalarTableRuns]
      simp only [totalLinkedArtifacts, List.map_cons, List.sum_cons] at hle
      apply ih
      · exact loadScalarExecutionArtifacts_rowlen _ _ _ h (by dsimp only; omega)
      · dsimp only
        rw [loadScalarExecutionArtifacts_artifactIndex]
        simp only [totalLinkedArtifacts]
        omega

/-! ## Claim theorems: table shape -/

/-- C1 counterexample: with one artifact but artifactCount 2, the single
metric row has length 2 while xLabels has length 1, so the rows do not all
have length xLabels.length even though the colSpan sum does. -/
theorem c1_counterexample :
    ((getScalarTableData exOneMetric 2).xParentLabels.map (·.colSpan)).sum =
      (getScalarTableData exOneMetric 2).xLabels.length ∧
    ((getScalarTableData exOneMetric 2).dataMap.all
      (fun e => e.2.row.length ==
        (getScalarTableData exOneMetric 2).xLabels.length)) = false := by
  decide

/-- C1 (amended): for every input the colSpan sum equals xLabels.length,
and when artifactCount equals the total number of linked artifacts every
dataMap row additionally has that same length, the global artifact
count. -/
theorem c1_theorem (ras : List RunArtifact) (ac : Nat) :
    ((getScalarTableData ras ac).xParentLabels.map (·.colSpan)).sum =
      (getScalarTableData ras ac).xLabels.length ∧
    (ac = totalLinkedArtifacts ras →
      (getScalarTableData ras ac).xLabels.length = ac ∧
      ∀ e ∈ (getScalarTableData ras ac).dataMap, e.2.row.length = ac) := by
  have hsum := scalarTableRuns_colSpanSum ac ras ⟨[], [], [], 0⟩
  have hlen := scalarTableRuns_xLabels_length ac ras ⟨[], [], [], 0⟩
  constructor
  · simp only [getScalarTableData]
    rw [hsum, hlen]
    simp
  · intro hac
    constructor
    · simp only [getScalarTableData]
      rw [hlen]
      simpa using hac.symm
    · simp only [getScalarTableData]
      exact scalarTableRuns_rowlen ac ras ⟨[], [], [], 0⟩ (by simp)
        (by simpa using Nat.le_of_eq hac.symm)

/-- Witness for c1_theorem: the worked acc/f1 input has two linked
artifacts, and with artifactCount 2 every row has length 2 = xLabels
length. -/
theorem c1_witness :
    (2 = totalLinkedArtifacts exAccF1) ∧
    (getScalarTableData exAccF1 2).xLabels.length = 2 ∧
    ((getScalarTableData exAccF1 2).dataMap.all
      (fun e => e.2.row.length == 2)) = true := by
  have h := (c1_theorem exAccF1 2).2 (by decide)
  refine ⟨by decide, h.1, ?_⟩
  rw [List.all_eq_true]
  intro e he
  simpa using h.2 e he

/-! ## Data-count invariant -/

theorem replicate_cell_unfilled (c p : Nat) :
    cellFilled ((List.replicate c (some "")).getD p none) = false := by
  by_cases h : p < c
  · simp [List.getD, List.getElem?_replicate, h, cellFilled]
  · simp [List.getD, List.getElem?_replicate, h, cellFilled]

theorem jsMapGet_stringify_ne_empty (props : List (String × MlmdValue))
    (hw : ∀ e ∈ props, wfValue e.2 = true) (k : String) :
    jsonStringify (getMetadataValue (jsMapGet props k)) ≠ "" := by
  apply jsonStringify_getMetadataValue_ne_empty
  intro dec hdec
  unfold jsMapGet at hdec
  cases hf : props.find? (fun e => e.1 == k) with
  | none => rw [hf] at hdec; simp at hdec
  | some e =>
      rw [hf] at hdec
      simp at hdec
      have hwv := hw e (List.mem_of_find?_eq_some hf)
      rw [hdec] at hwv
      simpa [wfValue] using hwv

theorem addScalarEntries_countInv (props : List (String × MlmdValue))
    (j c : Nat) (hw : ∀ e ∈ props, wfValue e.2 = true) :
    ∀ (pending : List (String × MlmdValue)) (dm : DataMap),
      (pending.map (·.1)).Nodup →
      (∀ e ∈ dm,
        e.2.dataCount = filledCells e.2.row ∧
        (∀ p, j < p → cellFilled (e.2.row.getD p none) = false) ∧
        (e.1 ∈ pending.map (·.1) →
          cellFilled (e.2.row.getD j none) = false)) →
      ∀ e ∈ addScalarEntries props j c pending dm,
        e.2.dataCount = filledCells e.2.row ∧
        ∀ p, j < p → cellFilled (e.2.row.getD p none) = false := by
  intro pending
  induction pending with
  | nil =>
      intro dm _ hinv
      simp only [addScalarEntries]
      intro e he
      exact ⟨(hinv e he).1, (hinv e he).2.1⟩
  | cons entry rest ih =>
      intro dm hnd hinv
      have hnd' : entry.1 ∉ rest.map (·.1) ∧ (rest.map (·.1)).Nodup := by
        rw [List.map_cons, List.nodup_cons] at hnd
        exact hnd
      simp only [addScalarEntries]
      apply ih _ hnd'.2
      rw [addScalarEntry_eq]
      by_cases hd : entry.1 = "display_name"
      · rw [if_pos hd]
        intro e he
        exact ⟨(hinv e he).1, (hinv e he).2.1,
          fun hm => (hinv e he).2.2 (List.mem_cons_of_mem _ hm)⟩
      · rw [if_neg hd]
        have hv : jsonStringify (getMetadataValue (jsMapGet props entry.1)) ≠ "" :=
          jsMapGet_stringify_ne_empty props hw entry.1
        cases hl : dmLookup dm entry.1 with
        | some rd =>
            have hrd := hinv (entry.1, rd) (dmLookup_mem hl)
            have hunf : ∀ p, j ≤ p → cellFilled (rd.row.getD p none) = false := by
              intro p hp
              rcases Nat.lt_or_ge j p with hlt | hge
              · exact hrd.2.1 p hlt
              · have hpj : p = j := Nat.le_antisymm hge hp
                rw [hpj]
                exact hrd.2.2 (by simp)
            intro e he
            rcases dmSet_mem e he with h1 | h1
            · exact ⟨(hinv e h1).1, (hinv e h1).2.1,
                fun hm => (hinv e h1).2.2 (List.mem_cons_of_mem _ hm)⟩
            · rw [h1]
              refine ⟨?_, ?_, ?_⟩
              · dsimp only
                rw [filledCells_jsArraySet _ _ _ (hunf j (Nat.le_refl j)) hv,
                  hrd.1]
              · exact jsArraySet_unfilled_above _ _ _ hunf
              · intro hm
                exact absurd hm hnd'.1
        | none =>
            intro e he
            rcases dmSet_mem e he with h1 | h1
            · rcases dmSet_mem e h1 with h2 | h2
              · exact ⟨(hinv e h2).1, (hinv e h2).2.1,
                  fun hm => (hinv e h2).2.2 (List.mem_cons_of_mem _ hm)⟩
              · rw [h2]
                refine ⟨?_, ?_, ?_⟩
                · dsimp only
                  rw [filledCells_replicate _ _ (by simp [cellFilled])]
                · intro p _
                  exact replicate_cell_unfilled c p
                · intro _
                  exact replicate_cell_unfilled c j
            · rw [h1]
              refine ⟨?_, ?_, ?_⟩
              · dsimp only
                rw [filledCells_jsArraySet _ _ _ (replicate_cell_unfilled c j) hv,
                  filledCells_replicate _ _ (by simp [cellFilled])]
              · exact jsArraySet_unfilled_above _ _ _
                  (fun p _ => replicate_cell_unfilled c p)
              · intro hm
                exact absurd hm hnd'.1

theorem addScalarDataItems_countInv (props : List (String × MlmdValue))
    (dm : DataMap) (j c : Nat) (hwp : wfProps props)
    (hinv : dmCountInv dm j) :
    dmCountInv (addScalarDataItems props dm j c) (j + 1) := by
  unfold dmCountInv at hinv ⊢
  intro e he
  have h := addScalarEntries_countInv props j c hwp.2 props dm hwp.1
    (fun e' he' => ⟨(hinv e' he').1,
      fun p hp => (hinv e' he').2 p (Nat.le_of_lt hp),
      fun _ => (hinv e' he').2 j (Nat.le_refl j)⟩) e he
  exact ⟨h.1, fun p hp => h.2 p (by omega)⟩

theorem loadLinkedArtifacts_countInv (t : String) (c : Nat) :
    ∀ (las : List LinkedArtifact) (st : AggState),
      (∀ la ∈ las, wfProps la.artifact.customProperties) →
      dmCountInv st.dataMap st.artifactIndex →
      dmCountInv (loadLinkedArtifacts t c las st).dataMap
        (loadLinkedArtifacts t c las st).artifactIndex := by
  intro las
  induction las with
  | nil => intro st _ h; simpa [loadLinkedArtifacts] using h
  | cons la rest ih =>
      intro st hw h
      simp only [loadLinkedArtifacts]
      apply ih
      · intro la' h'
        exact hw la' (List.mem_cons_of_mem _ h')
      · exact addScalarDataItems_countInv _ _ _ _
          (hw la (List.Mem.head _)) h

theorem loadScalarExecutionArtifacts_countInv (c : Nat) :
    ∀ (eas : List ExecutionArtifact) (st : AggState),
      (∀ ea ∈ eas, ∀ la ∈ ea.linkedArtifacts,
        wfProps la.artifact.customProperties) →
      dmCountInv st.dataMap st.artifactIndex →
      dmCountInv (loadScalarExecutionArtifacts c eas st).dataMap
        (loadScalarExecutionArtifacts c eas st).artifactIndex := by
  intro eas
  induction eas with
  | nil => intro st _ h; simpa [loadScalarExecutionArtifacts] using h
  | cons ea rest ih =>
      intro st hw h
      simp only [loadScalarExecutionArtifacts]
      apply ih
      · intro ea' h'
        exact hw ea' (List.mem_cons_of_mem _ h')
      · exact loadLinkedArtifacts_countInv _ _ _ _
          (hw ea (List.Mem.head _)) h

theorem scalarTableRuns_countInv (c : Nat) :
    ∀ (ras : List RunArtifact) (st : RunsState),
      (∀ ra ∈ ras, ∀ ea ∈ ra.executionArtifacts, ∀ la ∈ ea.linkedArtifacts,
        wfProps la.artifact.customProperties) →
      dmCountInv st.dataMap st.artifactIndex →
      dmCountInv (scalarTableRuns c ras st).dataMap
        (scalarTableRuns c ras st).artifactIndex := by
  intro ras
  induction ras with
  | nil => intro st _ h; simpa [scalarTableRuns] using h
  | cons ra rest ih =>
      intro st hw h
      simp only [scalarTableRuns]
      apply ih
      · intro ra' h'
        exact hw ra' (List.mem_cons_of_mem _ h')
      · exact loadScalarExecutionArtifacts_countInv _ _
          ⟨st.xLabels, st.dataMap, st.artifactIndex⟩
          (hw ra (List.Mem.head _)) h

/-- C7: for every well-formed input (unique property keys per artifact,
non-empty double payloads, as jspb maps and JavaScript number printing
guarantee), every dataMap entry's dataCount equals the number of cells of
its row holding a non-empty string. -/
theorem c7_theorem (ras : List RunArtifact) (ac : Nat)
    (hw : wfRunArtifacts ras) :
    ∀ e ∈ (getScalarTableData ras ac).dataMap,
      e.2.dataCount = filledCells e.2.row := by
  intro e he
  have h := scalarTableRuns_countInv ac ras ⟨[], [], [], 0⟩ hw
    (fun e' he' => absurd he' (List.not_mem_nil e'))
  exact (h e (by simpa [getScalarTableData] using he)).1

/-- Witness for c7_theorem on the worked acc/f1 example. -/
theorem c7_witness :
    wfRunArtifacts exAccF1 ∧
    ((getScalarTableData exAccF1 2).dataMap.all
      (fun e => e.2.dataCount == filledCells e.2.row)) = true := by
  have hwf : wfRunArtifacts exAccF1 := by
    unfold wfRunArtifacts wfProps
    decide
  refine ⟨hwf, ?_⟩
  rw [List.all_eq_true]
  intro e he
  simpa using c7_theorem exAccF1 2 hwf e he

/-! ## Stable sort lemmas -/

theorem stableInsert_perm (le : α → α → Bool) (a : α) :
    ∀ s : List α, (stableInsert le a s).Perm (a :: s)
  | [] => List.Perm.refl _
  | b :: t => by
      unfold stableInsert
      split
      · exact ((stableInsert_perm le a t).cons b).trans (List.Perm.swap a b t)
      · exact List.Perm.refl _

theorem stableSort_perm (le : α → α → Bool) :
    ∀ l : List α, (stableSort le l).Perm l
  | [] => List.Perm.refl _
  | a :: t => by
      unfold stableSort
      exact (stableInsert_perm le a (stableSort le t)).trans
        ((stableSort_perm le t).cons a)

theorem stableInsert_pairwise (le : α → α → Bool)
    (total : ∀ x y, le x y = true ∨ le y x = true)
    (trans : ∀ x y z, le x y = true → le y z = true → le x z = true)
    (a : α) :
    ∀ s : List α, s.Pairwise (fun x y => le x y = true) →
      (stableInsert le a s).Pairwise (fun x y => le x y = true)
  | [], _ => by simp [stableInsert]
  | b :: t, hp => by
      unfold stableInsert
      rw [List.pairwise_cons] at hp
      split
      · rename_i hcond
        rw [List.pairwise_cons]
        refine ⟨?_, stableInsert_pairwise le total trans a t hp.2⟩
        intro x hx
        have hx' : x = a ∨ x ∈ t := by
          simpa using (stableInsert_perm le a t).mem_iff.mp hx
        have hc : le b a = true ∧ le a b = false := by simpa using hcond
        rcases hx' with rfl | hx'
        · exact hc.1
        · exact hp.1 x hx'
      · rename_i hcond
        have hab : le a b = true := by
          rcases total a b with h | h
          · exact h
          · by_cases h2 : le a b = true
            · exact h2
            · have h2' : le a b = false := by simpa using h2
              exact absurd (by simp [h, h2']) hcond
        rw [List.pairwise_cons]
        refine ⟨?_, ?_⟩
        · intro x hx
          rcases List.mem_cons.mp hx with rfl | hx'
          · exact hab
          · exact trans a b x hab (hp.1 x hx')
        · rw [List.pairwise_cons]
          exact hp

theorem stableSort_pairwise (le : α → α → Bool)
    (total : ∀ x y, le x y = true ∨ le y x = true)
    (trans : ∀ x y z, le x y = true → le y z = true → le x z = true) :
    ∀ l : List α, (stableSort le l).Pairwise (fun x y => le x y = true)
  | [] => by simp [stableSort]
  | a :: t => by
      unfold stableSort
      exact stableInsert_pairwise le total trans a _
        (stableSort_pairwise le total trans t)

theorem stableInsert_filter (le : α → α → Bool) (p : α → Bool) (a : α)
    (h : ∀ b, p a = true → p b = true → le a b = true) :
    ∀ s : List α, (stableInsert le a s).filter p =
      if p a then a :: s.filter p else s.filter p
  | [] => by
      cases hpa : p a <;> simp [stableInsert, List.filter_cons, hpa]
  | b :: t => by
      unfold stableInsert
      split
      · rename_i hcond
        rw [List.filter_cons, stableInsert_filter le p a h t]
        cases hpa : p a with
        | false => simp [List.filter_cons, hpa]
        | true =>
            have hpb : p b = false := by
              cases hpb : p b with
              | false => rfl
              | true =>
                  exfalso
                  have hab := h b hpa hpb
                  have hc : le b a = true ∧ le a b = false := by
                    simpa using hcond
                  rw [hab] at hc
                  exact absurd hc.2 (by simp)
            simp [List.filter_cons, hpa, hpb]
      · cases hpa : p a <;> simp [List.filter_cons, hpa]

theorem stableSort_filter (le : α → α → Bool) (p : α → Bool)
    (hp : ∀ x y, p x = true → p y = true → le x y = true) :
    ∀ l : List α, (stableSort le l).filter p = l.filter p
  | [] => rfl
  | a :: t => by
      unfold stableSort
      rw [stableInsert_filter le p a (fun b => hp a b) _,
        stableSort_filter le p hp t, List.filter_cons]

theorem scalarSortLe_total (x y : String × ScalarRowData) :
    scalarSortLe x y = true ∨ scalarSortLe y x = true := by
  unfold scalarSortLe
  rcases Nat.le_total y.2.dataCount x.2.dataCount with h | h
  · exact Or.inl (by simpa using h)
  · exact Or.inr (by simpa using h)

theorem scalarSortLe_trans (x y z : String × ScalarRowData)
    (h1 : scalarSortLe x y = true) (h2 : scalarSortLe y z = true) :
    scalarSortLe x z = true := by
  unfold scalarSortLe at h1 h2 ⊢
  simp at h1 h2 ⊢
  omega

/-! ## Claim theorems: row ordering -/

/-- C2 counterexample: with tied metrics named "2" and "1" (inserted in
that order), the output row order is the numeric object-key order 1, 2 and
not the first-encountered order 2, 1, although both rows have equal
dataCount. -/
theorem c2_counterexample :
    (getScalarTableData exNumericKeys 1).dataMap.map (·.1) = ["2", "1"] ∧
    (getScalarTableData exNumericKeys 1).dataMap.map (·.2.dataCount) =
      [1, 1] ∧
    (getCompareTableProps exNumericKeys 1).yLabels = ["1", "2"] ∧
    (getCompareTableProps exNumericKeys 1).yLabels ≠ ["2", "1"] := by
  decide

/-- C2 (amended): yLabels and rows are the dataMap entries stably sorted by
dataCount descending over the JavaScript object enumeration order of
dataMap (array-index metric names first in ascending numeric order, then
the remaining names in first-encountered insertion order): the output is a
permutation of those entries, its dataCounts are non-increasing, and the
entries of any fixed dataCount keep exactly their enumeration order. -/
theorem c2_theorem (ras : List RunArtifact) (ac : Nat) :
    (getCompareTableProps ras ac).yLabels =
      (stableSort scalarSortLe
        (jsObjectEntries (getScalarTableData ras ac).dataMap)).map (·.1) ∧
    (getCompareTableProps ras ac).rows =
      (stableSort scalarSortLe
        (jsObjectEntries (getScalarTableData ras ac).dataMap)).map
        (·.2.row) ∧
    (stableSort scalarSortLe
      (jsObjectEntries (getScalarTableData ras ac).dataMap)).Perm
      (jsObjectEntries (getScalarTableData ras ac).dataMap) ∧
    (stableSort scalarSortLe
      (jsObjectEntries (getScalarTableData ras ac).dataMap)).Pairwise
      (fun x y => y.2.dataCount ≤ x.2.dataCount) ∧
    ∀ n : Nat,
      (stableSort scalarSortLe
        (jsObjectEntries (getScalarTableData ras ac).dataMap)).filter
        (fun e => e.2.dataCount == n) =
      (jsObjectEntries (getScalarTableData ras ac).dataMap).filter
        (fun e => e.2.dataCount == n) := by
  refine ⟨rfl, rfl, stableSort_perm _ _, ?_, ?_⟩
  · exact (stableSort_pairwise scalarSortLe scalarSortLe_total
      scalarSortLe_trans _).imp (fun h => by simpa [scalarSortLe] using h)
  · intro n
    apply stableSort_filter
    intro x y hx hy
    have hx' : x.2.dataCount = n := by simpa using hx
    have hy' : y.2.dataCount = n := by simpa using hy
    simp [scalarSortLe, hx', hy']
